import Mathlib

/-!
Shallow embedding of the group-cooperative prefix-scan of `src/bulk/algorithm/scan.hpp`.

The source runs as barrier-synchronized lockstep code over a team of
`groupsize` workers (template parameters `groupsize`/`grainsize`, here `W`/`G`).
Every phase of the algorithm is delimited by full-group barriers (`g.wait()` /
the implicit barrier of `bulk::copy_n`), so each barrier-delimited round is a
pure function of the shared state at the previous barrier.  The embedding
therefore models each round as a simultaneous pointwise update of the shared
arrays, and the whole scan as a deterministic function of the input list, the
initial carry, and the initial (possibly garbage) contents of the `sums`
scratch array.

Shared `sums`-style arrays are modelled as functions `ℕ → α`; only indices
below the worker count `W` are ever read by the algorithm.  Machine `int`
index arithmetic (`thrust::min`/`max` clamping in the source) is modelled with
truncated `ℕ` subtraction, which agrees with the source's
`max(0, min(grainsize, partition_size - grainsize*tid))` clamping.
-/

namespace BulkScan

variable {α : Type} (op : α → α → α)

/-- Fold of a non-empty list seeded from its head (`x = i ? op(x, v) : v` in the
fused copy-and-accumulate loop, scan.hpp lines 161-170); the default `d` stands
for the uninitialized `x` of a worker whose local slice is empty and is never
used on a non-empty list. -/
def fold1D (d : α) : List α → α
  | [] => d
  | h :: s => s.foldl op h

/-- Fold of the segment `a lo, a (lo+1), ..., a (lo+n)` of a shared array,
left-to-right. -/
def seg_fold (a : ℕ → α) (lo : ℕ) : ℕ → α
  | 0 => a lo
  | n + 1 => op (seg_fold a lo n) (a (lo + n + 1))

/-- One barrier-delimited round of the Hillis-Steele loop
(scan.hpp lines 57-69): every worker `i` with `i ≥ offset` combines the value
`offset` positions back in the currently active buffer into its own value; the
updated values become the active buffer of the next round (the ping-pong swap
makes the round a simultaneous pointwise update). -/
def hs_round (f : ℕ → α) (offset : ℕ) : ℕ → α := fun i =>
  if offset ≤ i then op (f (i - offset)) (f i) else f i

/-- The doubling loop `for(offset = 1; offset < size; offset += offset)` of
`small_inplace_exclusive_scan_with_buffer` (scan.hpp lines 57-69).  The loop is
given as fuel the worker count `size`: since the offset doubles each round, the
exit condition `offset ≥ size` is reached after at most `size` iterations
(`size ≤ 2 ^ size`), so the fueled loop computes exactly the source loop. -/
def hs_loop (size : ℕ) : ℕ → (ℕ → α) → ℕ → (ℕ → α)
  | 0, f, _ => f
  | fuel + 1, f, offset =>
      if offset < size then hs_loop size fuel (hs_round op f offset) (offset + offset)
      else f

/-- The pre-loop update `if(tid == 0) first[0] = binary_op(init, first[0])`
(scan.hpp lines 48-51). -/
def scan_init (init : α) (v : ℕ → α) : ℕ → α := fun i =>
  if i = 0 then op init (v i) else v i

/-- `small_inplace_exclusive_scan_with_buffer` (scan.hpp lines 36-82) over the
first `size` slots of the shared array `v`, with carry-in `init`.  Returns the
final contents of the array (first component: worker `tid` stores `init` at
slot 0 and the value one position back in the final buffer elsewhere, lines
73-77) and the returned total `ping[size-1]` (second component, line 71). -/
def small_scan (size : ℕ) (v : ℕ → α) (init : α) : (ℕ → α) × α :=
  let fin := hs_loop op size size (scan_init op init v) 1
  (fun i => if i = 0 then init else fin (i - 1), fin (size - 1))

/-- Contents of `buffer.sums` after the fused copy-and-accumulate phase of one
tile (scan.hpp lines 150-175): worker `i` writes the fold of its local slice
`[G*i, G*i + local_size)` of the staged tile `t` only when `local_size > 0`;
otherwise its slot keeps the previous (possibly garbage) value `sums i`. -/
def tile_sums (W G : ℕ) (t : List α) (sums : ℕ → α) : ℕ → α := fun i =>
  if i < W ∧ G * i < t.length then fold1D op (sums i) ((t.drop (G * i)).take G)
  else sums i

/-- One tile of the driver loop up to and including the small scan
(scan.hpp lines 145-180) for the staged tile `t`: returns the new carry (the
total returned by the small scan) and the new contents of the `sums` array
(slots below `W` rewritten by the small scan's write-back, others untouched). -/
def tile_step (W G : ℕ) (t : List α) (carry : α) (sums : ℕ → α) : α × (ℕ → α) :=
  let st := small_scan op W (tile_sums op W G t sums) carry
  (st.2, fun i => if i < W then st.1 i else sums i)

/-- The per-worker output loop (scan.hpp lines 188-206): starting from the
worker's exclusive tile prefix `x`, inclusive mode combines then stores, and
exclusive mode stores then combines, left to right over the worker's local
slice. -/
def slice_scan (inclusive : Bool) : α → List α → List α
  | _, [] => []
  | x, h :: s =>
      if inclusive then op x h :: slice_scan inclusive (op x h) s
      else x :: slice_scan inclusive (op x h) s

/-- Contents of `stage.results` for one tile (scan.hpp lines 188-206): worker
`tid` writes positions `[G*tid, G*tid + local_size)`, so the staged output is
the concatenation, in worker-index order, of the per-worker output loops, each
seeded with the worker's slot of the post-small-scan `sums` array. -/
def tile_out (inclusive : Bool) (W G : ℕ) (sums2 : ℕ → α) (t : List α) : List α :=
  ((List.range W).map fun tid =>
    slice_scan op inclusive (sums2 tid) ((t.drop (G * tid)).take G)).flatten

/-- The tile loop `for(; first < last; first += elements_per_group, ...)` of
`scan_with_buffer` (scan.hpp lines 143-211).  The loop is given as fuel the
input length: each iteration consumes `min(W*G, remaining) ≥ 1` elements
(for `W*G ≥ 1`), so fuel equal to the length computes exactly the source loop;
the degenerate `W*G = 0` guard is unreachable for the positive template sizes
the source is instantiated with. -/
def scan_loop (inclusive : Bool) (W G : ℕ) :
    ℕ → List α → α → (ℕ → α) → List α
  | 0, _, _, _ => []
  | fuel + 1, input, carry, sums =>
      match input with
      | [] => []
      | h :: rest =>
          if W * G = 0 then []
          else
            let t := (h :: rest).take (W * G)
            let cs := tile_step op W G t carry sums
            tile_out op inclusive W G cs.2 t ++
              scan_loop inclusive W G fuel ((h :: rest).drop (W * G)) cs.1 cs.2

/-- `scan_with_buffer` (scan.hpp lines 106-212): the tiled scan of the whole
input range with initial carry `carry_in`, parametrized by the initial
(garbage) contents of the scratch `sums` array. -/
def scan_with_buffer (inclusive : Bool) (W G : ℕ) (input : List α) (carry_in : α)
    (sums : ℕ → α) : List α :=
  scan_loop op inclusive W G input.length input carry_in sums

/-- The entry point `bulk::inclusive_scan` with an initial value
(scan.hpp lines 225-250): allocates the scratch buffer and dispatches on the
placement tag `is_shared`; both branches run `scan_with_buffer<true>` on the
same data.  Modelled from the spec: `bulk::malloc`, `bulk::detail::is_shared`
and `on_chip_cast` live in bulk/malloc.hpp, which is not part of the sources;
per spec section 4.4 the tag only selects which memory region backs the
buffer and never changes the algorithm, so the tag is modelled as an inert
boolean. -/
def inclusive_scan (W G : ℕ) (input : List α) (init : α) (shared : Bool)
    (sums : ℕ → α) : List α :=
  if shared then scan_with_buffer op true W G input init sums
  else scan_with_buffer op true W G input init sums

/-- The entry point `bulk::exclusive_scan` (scan.hpp lines 288-313), modelled
like `inclusive_scan` with the compile-time mode flag set to exclusive. -/
def exclusive_scan (W G : ℕ) (input : List α) (init : α) (shared : Bool)
    (sums : ℕ → α) : List α :=
  if shared then scan_with_buffer op false W G input init sums
  else scan_with_buffer op false W G input init sums

/-- The convenience overload of `bulk::inclusive_scan` without an initial
value (scan.hpp lines 259-279): on a non-empty range the first source element
becomes the seed, worker 0 copies it verbatim to the first destination slot,
and the scan with that seed runs on the remaining elements into the remaining
destination slots; on an empty range nothing is written. -/
def inclusive_scan_no_init (W G : ℕ) (input : List α) (shared : Bool)
    (sums : ℕ → α) : List α :=
  match input with
  | [] => []
  | h :: rest => h :: inclusive_scan op W G rest h shared sums

/-- State of the tile loop of `scan_with_buffer` at the start of iteration
`k`: the carry and the scratch `sums` contents, obtained by iterating
`tile_step` over the first `k` tiles (scan.hpp lines 143-180). -/
def carry_state (W G : ℕ) (input : List α) (init : α) (sums0 : ℕ → α) :
    ℕ → α × (ℕ → α)
  | 0 => (init, sums0)
  | k + 1 =>
      let cs := carry_state W G input init sums0 k
      tile_step op W G ((input.drop (k * (W * G))).take (W * G)) cs.1 cs.2

/-- Modelled from the spec: the reference sequential prefix scan of section 8,
whose value at position `i` is `binary_op(initial_value, fold(elements[0..=i]))`
in inclusive mode and `binary_op(initial_value, fold(elements[0..i]))` in
exclusive mode, with the empty exclusive fold at position 0 defined as the
initial value itself. -/
def spec_scan (inclusive : Bool) (init : α) (l : List α) : List α :=
  (List.range l.length).map fun i =>
    if inclusive then op init (fold1D op init (l.take (i + 1)))
    else if i = 0 then init else op init (fold1D op init (l.take i))

/-- The window of values a worker's running value covers after the rounds with
offsets below `offset`: the fold of the last `min (i+1) offset` array entries
ending at position `i`. -/
def win (a : ℕ → α) (offset i : ℕ) : α :=
  if i < offset then seg_fold op a 0 i else seg_fold op a (i + 1 - offset) (offset - 1)

end BulkScan

namespace BulkScan

variable {α : Type} {op : α → α → α}

lemma foldl_op_assoc (hassoc : ∀ a b c, op (op a b) c = op a (op b c)) :
    ∀ (l : List α) (a b : α), l.foldl op (op a b) = op a (l.foldl op b) := by
  intro l
  induction l with
  | nil => intro a b; rfl
  | cons h s ih =>
      intro a b
      simp only [List.foldl_cons]
      rw [hassoc a b h, ih]

lemma op_fold1D (hassoc : ∀ a b c, op (op a b) c = op a (op b c))
    (a d : α) (l : List α) (hl : l ≠ []) :
    op a (fold1D op d l) = l.foldl op a := by
  cases l with
  | nil => exact absurd rfl hl
  | cons h s =>
      simp only [fold1D, List.foldl_cons]
      rw [foldl_op_assoc hassoc]

lemma fold1D_irrel (d d' : α) (l : List α) (hl : l ≠ []) :
    fold1D op d l = fold1D op d' l := by
  cases l with
  | nil => exact absurd rfl hl
  | cons h s => rfl

lemma fold1D_append (hassoc : ∀ a b c, op (op a b) c = op a (op b c))
    (d d' : α) (l m : List α) (hl : l ≠ []) (hm : m ≠ []) :
    fold1D op d (l ++ m) = op (fold1D op d l) (fold1D op d' m) := by
  cases l with
  | nil => exact absurd rfl hl
  | cons h s =>
      cases m with
      | nil => exact absurd rfl hm
      | cons h' s' =>
          simp only [fold1D, List.cons_append, List.foldl_cons, List.foldl_append,
            List.foldl_cons]
          rw [foldl_op_assoc hassoc]

lemma seg_fold_append (hassoc : ∀ a b c, op (op a b) c = op a (op b c))
    (a : ℕ → α) :
    ∀ (n lo m : ℕ),
      op (seg_fold op a lo m) (seg_fold op a (lo + m + 1) n) =
        seg_fold op a lo (m + n + 1) := by
  intro n
  induction n with
  | zero => intro lo m; rfl
  | succ n ih =>
      intro lo m
      show op (seg_fold op a lo m)
        (op (seg_fold op a (lo + m + 1) n) (a (lo + m + 1 + n + 1))) = _
      rw [← hassoc, ih]
      have harith : lo + m + 1 + n + 1 = lo + (m + n + 1) + 1 := by omega
      rw [harith]
      rfl

lemma hs_round_win (hassoc : ∀ a b c, op (op a b) c = op a (op b c))
    (a f : ℕ → α) (size offset : ℕ) (hoff : 1 ≤ offset)
    (hinv : ∀ i < size, f i = win op a offset i) :
    ∀ i < size, hs_round op f offset i = win op a (offset + offset) i := by
  intro i hi
  unfold hs_round win
  by_cases hle : offset ≤ i
  · simp only [if_pos hle]
    rw [hinv i hi, hinv (i - offset) (by omega)]
    by_cases h2 : i < offset + offset
    · -- the window at i - offset is a full prefix
      have hio : i - offset < offset := by omega
      simp only [win, if_pos hio, if_neg (by omega : ¬ i < offset), if_pos h2]
      have := seg_fold_append hassoc a (offset - 1) 0 (i - offset)
      have harith1 : 0 + (i - offset) + 1 = i + 1 - offset := by omega
      have harith2 : i - offset + (offset - 1) + 1 = i := by omega
      rw [harith1, harith2] at this
      exact this
    · -- both windows have full length offset
      have hio : ¬ i - offset < offset := by omega
      simp only [win, if_neg hio, if_neg (by omega : ¬ i < offset), if_neg h2]
      have := seg_fold_append hassoc a (offset - 1) (i - offset + 1 - offset) (offset - 1)
      have harith1 : i - offset + 1 - offset + (offset - 1) + 1 = i + 1 - offset := by
        omega
      have harith2 : offset - 1 + (offset - 1) + 1 = offset + offset - 1 := by omega
      have harith3 : i - offset + 1 - offset = i + 1 - (offset + offset) := by omega
      rw [harith1, harith2] at this
      rw [← harith3]
      exact this
  · simp only [if_neg hle]
    rw [hinv i hi]
    have h1 : i < offset := by omega
    simp only [win, if_pos h1, if_pos (by omega : i < offset + offset)]

lemma hs_loop_win (hassoc : ∀ a b c, op (op a b) c = op a (op b c))
    (a : ℕ → α) (size : ℕ) :
    ∀ (fuel : ℕ) (f : ℕ → α) (offset : ℕ), 1 ≤ offset →
      size ≤ 2 ^ fuel * offset →
      (∀ i < size, f i = win op a offset i) →
      ∀ i < size, hs_loop op size fuel f offset i = seg_fold op a 0 i := by
  intro fuel
  induction fuel with
  | zero =>
      intro f offset hoff hle hinv i hi
      simp only [hs_loop]
      have : i < offset := by omega
      have := hinv i hi
      rw [this, win, if_pos ‹i < offset›]
  | succ fuel ih =>
      intro f offset hoff hle hinv i hi
      simp only [hs_loop]
      by_cases hlt : offset < size
      · simp only [if_pos hlt]
        refine ih (hs_round op f offset) (offset + offset) (by omega) ?_ ?_ i hi
        · calc size ≤ 2 ^ (fuel + 1) * offset := hle
            _ = 2 ^ fuel * (offset + offset) := by ring
        · exact hs_round_win hassoc a f size offset hoff hinv
      · simp only [if_neg hlt]
        have : i < offset := by omega
        rw [hinv i hi, win, if_pos this]

lemma seg_fold_scan_init (hassoc : ∀ a b c, op (op a b) c = op a (op b c))
    (c : α) (v : ℕ → α) :
    ∀ s, seg_fold op (scan_init op c v) 0 s = op c (seg_fold op v 0 s) := by
  intro s
  induction s with
  | zero => simp [seg_fold, scan_init]
  | succ s ih =>
      show op (seg_fold op (scan_init op c v) 0 s) (scan_init op c v (0 + s + 1)) = _
      rw [ih]
      have : scan_init op c v (0 + s + 1) = v (0 + s + 1) := by
        simp [scan_init]
      rw [this, hassoc]
      rfl

lemma small_scan_fst (hassoc : ∀ a b c, op (op a b) c = op a (op b c))
    (size : ℕ) (v : ℕ → α) (c : α) :
    ∀ i, i < size →
      (small_scan op size v c).1 i =
        if i = 0 then c else op c (seg_fold op v 0 (i - 1)) := by
  intro i hi
  simp only [small_scan]
  by_cases h0 : i = 0
  · simp [h0]
  · simp only [if_neg h0]
    have hwin : ∀ j < size, scan_init op c v j = win op (scan_init op c v) 1 j := by
      intro j hj
      unfold win
      by_cases hj0 : j < 1
      · simp only [if_pos hj0]
        have : j = 0 := by omega
        simp [this, seg_fold]
      · simp only [if_neg hj0]
        show _ = seg_fold op (scan_init op c v) (j + 1 - 1) 0
        simp [seg_fold]
    have := hs_loop_win hassoc (scan_init op c v) size size (scan_init op c v) 1
      (le_refl 1) (by have := Nat.lt_two_pow size; omega) hwin (i - 1) (by omega)
    rw [this, seg_fold_scan_init hassoc]

lemma small_scan_snd (hassoc : ∀ a b c, op (op a b) c = op a (op b c))
    (size : ℕ) (hsize : 0 < size) (v : ℕ → α) (c : α) :
    (small_scan op size v c).2 = op c (seg_fold op v 0 (size - 1)) := by
  simp only [small_scan]
  have hwin : ∀ j < size, scan_init op c v j = win op (scan_init op c v) 1 j := by
    intro j hj
    unfold win
    by_cases hj0 : j < 1
    · simp only [if_pos hj0]
      have : j = 0 := by omega
      simp [this, seg_fold]
    · simp only [if_neg hj0]
      show _ = seg_fold op (scan_init op c v) (j + 1 - 1) 0
      simp [seg_fold]
  have := hs_loop_win hassoc (scan_init op c v) size size (scan_init op c v) 1
    (le_refl 1) (by have := Nat.lt_two_pow size; omega) hwin (size - 1) (by omega)
  rw [this, seg_fold_scan_init hassoc]

lemma take_ne_nil_of_pos {l : List α} {n : ℕ} (hn : 0 < n) (hl : 0 < l.length) :
    l.take n ≠ [] := by
  have : 0 < (l.take n).length := by
    rw [List.length_take]; omega
  exact List.length_pos.mp this

lemma seg_fold_tile_sums (hassoc : ∀ a b c, op (op a b) c = op a (op b c))
    (W G : ℕ) (hG : 0 < G) (t : List α) (sums : ℕ → α) :
    ∀ s, s < W → G * (s + 1) ≤ t.length → ∀ d,
      seg_fold op (tile_sums op W G t sums) 0 s = fold1D op d (t.take (G * (s + 1))) := by
  intro s
  induction s with
  | zero =>
      intro hs hlen d
      have hpos : 0 < t.length := by
        have : G * 1 = G := by ring
        omega
      show tile_sums op W G t sums 0 = _
      rw [tile_sums, if_pos ⟨hs, by simpa using hpos⟩]
      simp only [Nat.mul_zero, List.drop_zero]
      have : G * (0 + 1) = G := by ring
      rw [this]
      exact fold1D_irrel _ _ _ (take_ne_nil_of_pos hG hpos)
  | succ s ih =>
      intro hs hlen d
      have hblock : G * (s + 1 + 1) = G * (s + 1) + G := by ring
      have hprev : G * (s + 1) ≤ t.length := by omega
      have hlive : G * (s + 1) < t.length := by omega
      show op (seg_fold op (tile_sums op W G t sums) 0 s)
        (tile_sums op W G t sums (0 + s + 1)) = _
      have hzs : 0 + s + 1 = s + 1 := by omega
      rw [hzs, ih (by omega) hprev d]
      rw [tile_sums, if_pos ⟨hs, hlive⟩]
      have htadd : t.take (G * (s + 1 + 1)) =
          t.take (G * (s + 1)) ++ (t.drop (G * (s + 1))).take G := by
        rw [hblock, List.take_add]
      rw [htadd]
      rw [fold1D_append hassoc d (sums (s + 1)) _ _
        (take_ne_nil_of_pos (by positivity) (by omega))
        (take_ne_nil_of_pos hG (by rw [List.length_drop]; omega))]

lemma tile_step_sums (hassoc : ∀ a b c, op (op a b) c = op a (op b c))
    (W G : ℕ) (_hW : 0 < W) (hG : 0 < G) (t : List α) (carry : α) (sums : ℕ → α) :
    ∀ tid, tid < W → G * tid < t.length →
      (tile_step op W G t carry sums).2 tid = (t.take (G * tid)).foldl op carry := by
  intro tid htid hlive
  show (if tid < W then (small_scan op W (tile_sums op W G t sums) carry).1 tid
    else sums tid) = _
  rw [if_pos htid]
  rw [small_scan_fst hassoc W (tile_sums op W G t sums) carry tid htid]
  cases tid with
  | zero => simp
  | succ s =>
      rw [if_neg (Nat.succ_ne_zero s)]
      have hps : s + 1 - 1 = s := by omega
      rw [hps]
      rw [seg_fold_tile_sums hassoc W G hG t sums s (by omega) (le_of_lt hlive) carry]
      exact op_fold1D hassoc carry carry _
        (take_ne_nil_of_pos (by positivity) (by omega))

lemma tile_step_total (hassoc : ∀ a b c, op (op a b) c = op a (op b c))
    (W G : ℕ) (hW : 0 < W) (hG : 0 < G) (t : List α) (hfull : t.length = W * G)
    (carry : α) (sums : ℕ → α) :
    (tile_step op W G t carry sums).1 = t.foldl op carry := by
  show (small_scan op W (tile_sums op W G t sums) carry).2 = _
  rw [small_scan_snd hassoc W hW (tile_sums op W G t sums) carry]
  have hWG : G * (W - 1 + 1) = W * G := by
    have : W - 1 + 1 = W := by omega
    rw [this]; ring
  rw [seg_fold_tile_sums hassoc W G hG t sums (W - 1) (by omega)
    (by have h1 : W - 1 + 1 = W := by omega
        rw [h1, hfull, Nat.mul_comm]) carry]
  rw [hWG, ← hfull, List.take_length]
  exact op_fold1D hassoc carry carry t (by
    have hpos : 0 < W * G := Nat.mul_pos hW hG
    exact List.length_pos.mp (by omega))

lemma slice_scan_append (inc : Bool) :
    ∀ (l m : List α) (x : α),
      slice_scan op inc x (l ++ m) =
        slice_scan op inc x l ++ slice_scan op inc (l.foldl op x) m := by
  intro l
  induction l with
  | nil => intro m x; simp [slice_scan]
  | cons h s ih =>
      intro m x
      cases inc <;> simp [slice_scan, ih, List.foldl_cons]

lemma slice_scan_length (inc : Bool) :
    ∀ (l : List α) (x : α), (slice_scan op inc x l).length = l.length := by
  intro l
  induction l with
  | nil => intro x; rfl
  | cons h s ih => intro x; cases inc <;> simp [slice_scan, ih]

lemma slice_scan_true_getD :
    ∀ (l : List α) (i : ℕ) (x d : α), i < l.length →
      (slice_scan op true x l).getD i d = (l.take (i + 1)).foldl op x := by
  intro l
  induction l with
  | nil => intro i x d hi; simp at hi
  | cons h s ih =>
      intro i x d hi
      cases i with
      | zero => simp [slice_scan]
      | succ j =>
          simp only [slice_scan, if_pos, List.getD_cons_succ, List.take_succ_cons,
            List.foldl_cons]
          exact ih j (op x h) d (by simpa using hi)

lemma slice_scan_false_getD :
    ∀ (l : List α) (i : ℕ) (x d : α), i < l.length →
      (slice_scan op false x l).getD i d = (l.take i).foldl op x := by
  intro l
  induction l with
  | nil => intro i x d hi; simp at hi
  | cons h s ih =>
      intro i x d hi
      cases i with
      | zero => simp [slice_scan]
      | succ j =>
          simp only [slice_scan, Bool.false_eq_true, if_neg, List.getD_cons_succ,
            List.take_succ_cons, List.foldl_cons]
          exact ih j (op x h) d (by simpa using hi)

lemma tile_out_blocks (hassoc : ∀ a b c, op (op a b) c = op a (op b c))
    (inc : Bool) (W G : ℕ) (hW : 0 < W) (hG : 0 < G) (t : List α)
    (carry : α) (sums : ℕ → α) :
    ∀ n, n ≤ W →
      ((List.range n).map fun tid =>
        slice_scan op inc ((tile_step op W G t carry sums).2 tid)
          ((t.drop (G * tid)).take G)).flatten =
        slice_scan op inc carry (t.take (G * n)) := by
  intro n
  induction n with
  | zero => simp [slice_scan]
  | succ n ih =>
      intro hn
      rw [List.range_succ, List.map_append, List.flatten_append]
      rw [ih (by omega)]
      simp only [List.map_cons, List.map_nil, List.flatten_cons, List.flatten_nil,
        List.append_nil]
      by_cases hlive : G * n < t.length
      · rw [tile_step_sums hassoc W G hW hG t carry sums n (by omega) hlive]
        have hadd : G * (n + 1) = G * n + G := by ring
        rw [hadd, List.take_add]
        exact (slice_scan_append inc _ _ carry).symm
      · have hdrop : t.drop (G * n) = [] :=
          List.drop_eq_nil_of_le (by omega)
        rw [hdrop]
        simp only [List.take_nil]
        have h1 : t.take (G * n) = t := List.take_of_length_le (by omega)
        have h2 : t.take (G * (n + 1)) = t := by
          refine List.take_of_length_le ?_
          have : G * n ≤ G * (n + 1) := by
            exact Nat.mul_le_mul_left G (by omega)
          omega
        rw [h1, h2]
        simp [slice_scan]

lemma tile_out_eq (hassoc : ∀ a b c, op (op a b) c = op a (op b c))
    (inc : Bool) (W G : ℕ) (hW : 0 < W) (hG : 0 < G) (t : List α)
    (ht : t.length ≤ W * G) (carry : α) (sums : ℕ → α) :
    tile_out op inc W G (tile_step op W G t carry sums).2 t =
      slice_scan op inc carry t := by
  rw [tile_out, tile_out_blocks hassoc inc W G hW hG t carry sums W (le_refl W)]
  have : t.take (G * W) = t := List.take_of_length_le (by
    rw [Nat.mul_comm] at ht; omega)
  rw [this]

lemma scan_loop_nil (inc : Bool) (W G fuel : ℕ) (carry : α) (sums : ℕ → α) :
    scan_loop op inc W G fuel [] carry sums = [] := by
  cases fuel <;> rfl

lemma scan_loop_eq (hassoc : ∀ a b c, op (op a b) c = op a (op b c))
    (inc : Bool) (W G : ℕ) (hW : 0 < W) (hG : 0 < G) :
    ∀ (fuel : ℕ) (input : List α), input.length ≤ fuel → ∀ (carry : α) (sums : ℕ → α),
      scan_loop op inc W G fuel input carry sums = slice_scan op inc carry input := by
  intro fuel
  induction fuel with
  | zero =>
      intro input hlen carry sums
      have : input = [] := List.eq_nil_of_length_eq_zero (by omega)
      subst this
      rfl
  | succ fuel ih =>
      intro input hlen carry sums
      cases input with
      | nil => rfl
      | cons h rest =>
          have hWG : W * G ≠ 0 := Nat.pos_iff_ne_zero.mp (Nat.mul_pos hW hG)
          simp only [scan_loop]
          rw [if_neg hWG]
          by_cases hle : (h :: rest).length ≤ W * G
          · have hdrop : (h :: rest).drop (W * G) = [] := List.drop_eq_nil_of_le hle
            have htake : (h :: rest).take (W * G) = h :: rest :=
              List.take_of_length_le hle
            rw [hdrop, scan_loop_nil, htake, List.append_nil]
            exact tile_out_eq hassoc inc W G hW hG _ hle carry sums
          · push_neg at hle
            have htlen : ((h :: rest).take (W * G)).length = W * G := by
              rw [List.length_take]; omega
            rw [tile_out_eq hassoc inc W G hW hG _ (le_of_eq htlen) carry sums]
            rw [tile_step_total hassoc W G hW hG _ htlen carry sums]
            rw [ih _ (by rw [List.length_drop]; omega)]
            rw [← slice_scan_append inc]
            rw [List.take_append_drop]

lemma scan_with_buffer_eq (hassoc : ∀ a b c, op (op a b) c = op a (op b c))
    (inc : Bool) (W G : ℕ) (hW : 0 < W) (hG : 0 < G) (input : List α)
    (carry : α) (sums : ℕ → α) :
    scan_with_buffer op inc W G input carry sums = slice_scan op inc carry input :=
  scan_loop_eq hassoc inc W G hW hG input.length input (le_refl _) carry sums

lemma foldl_take_succ :
    ∀ (l : List α) (i : ℕ) (x d : α), i < l.length →
      (l.take (i + 1)).foldl op x = op ((l.take i).foldl op x) (l.getD i d) := by
  intro l
  induction l with
  | nil => intro i x d hi; simp at hi
  | cons h s ih =>
      intro i x d hi
      cases i with
      | zero => simp
      | succ j =>
          simp only [List.take_succ_cons, List.foldl_cons, List.getD_cons_succ]
          exact ih j (op x h) d (by simpa using hi)

lemma hs_round_congr (f g : ℕ → α) (offset i : ℕ) (h : ∀ j ≤ i, f j = g j) :
    hs_round op f offset i = hs_round op g offset i := by
  unfold hs_round
  by_cases hle : offset ≤ i
  · rw [if_pos hle, if_pos hle, h i le_rfl, h (i - offset) (by omega)]
  · rw [if_neg hle, if_neg hle, h i le_rfl]

lemma hs_loop_congr (size : ℕ) :
    ∀ (fuel : ℕ) (f g : ℕ → α) (offset i : ℕ), (∀ j ≤ i, f j = g j) →
      hs_loop op size fuel f offset i = hs_loop op size fuel g offset i := by
  intro fuel
  induction fuel with
  | zero => intro f g offset i h; exact h i le_rfl
  | succ fuel ih =>
      intro f g offset i h
      simp only [hs_loop]
      by_cases hlt : offset < size
      · rw [if_pos hlt, if_pos hlt]
        exact ih _ _ _ i fun j hj =>
          hs_round_congr f g offset j fun j' hj' => h j' (le_trans hj' hj)
      · rw [if_neg hlt, if_neg hlt]
        exact h i le_rfl

lemma small_scan_fst_congr (size : ℕ) (v v' : ℕ → α) (c : α) (i : ℕ)
    (h : ∀ j < i, v j = v' j) :
    (small_scan op size v c).1 i = (small_scan op size v' c).1 i := by
  simp only [small_scan]
  by_cases h0 : i = 0
  · simp [h0]
  · simp only [if_neg h0]
    apply hs_loop_congr
    intro j hj
    unfold scan_init
    by_cases hj0 : j = 0
    · rw [if_pos hj0, if_pos hj0, hj0, h 0 (by omega)]
    · rw [if_neg hj0, if_neg hj0, h j (by omega)]

lemma small_scan_snd_congr (size : ℕ) (hsize : 0 < size) (v v' : ℕ → α) (c : α)
    (h : ∀ j < size, v j = v' j) :
    (small_scan op size v c).2 = (small_scan op size v' c).2 := by
  simp only [small_scan]
  apply hs_loop_congr
  intro j hj
  have hjs : j < size := by omega
  unfold scan_init
  by_cases hj0 : j = 0
  · rw [if_pos hj0, if_pos hj0, hj0, h 0 hsize]
  · rw [if_neg hj0, if_neg hj0, h j hjs]

lemma tile_sums_congr (W G : ℕ) (hG : 0 < G) (t : List α) (sums sums' : ℕ → α)
    (i : ℕ) (hiW : i < W) (hlive : G * i < t.length) :
    tile_sums op W G t sums i = tile_sums op W G t sums' i := by
  unfold tile_sums
  rw [if_pos ⟨hiW, hlive⟩, if_pos ⟨hiW, hlive⟩]
  exact fold1D_irrel _ _ _
    (take_ne_nil_of_pos hG (by rw [List.length_drop]; omega))

lemma tile_step_snd_congr (W G : ℕ) (hG : 0 < G) (t : List α) (carry : α)
    (sums sums' : ℕ → α) (i : ℕ) (hiW : i < W)
    (hlive : ∀ j < i, G * j < t.length) :
    (tile_step op W G t carry sums).2 i = (tile_step op W G t carry sums').2 i := by
  simp only [tile_step]
  rw [if_pos hiW, if_pos hiW]
  apply small_scan_fst_congr
  intro j hj
  exact tile_sums_congr W G hG t sums sums' j (lt_trans hj hiW) (hlive j hj)

lemma tile_step_fst_congr (W G : ℕ) (hW : 0 < W) (hG : 0 < G) (t : List α)
    (hfull : t.length = W * G) (carry : α) (sums sums' : ℕ → α) :
    (tile_step op W G t carry sums).1 = (tile_step op W G t carry sums').1 := by
  simp only [tile_step]
  apply small_scan_snd_congr W hW
  intro j hj
  refine tile_sums_congr W G hG t sums sums' j hj ?_
  have h1 : G * (j + 1) ≤ G * W := Nat.mul_le_mul_left G hj
  have h2 : G * (j + 1) = G * j + G := by ring
  have h3 : G * W = W * G := Nat.mul_comm G W
  rw [hfull]
  omega

lemma tile_out_congr (inc : Bool) (W G : ℕ) (t : List α) (carry : α)
    (sums sums' : ℕ → α) :
    tile_out op inc W G (tile_step op W G t carry sums).2 t =
      tile_out op inc W G (tile_step op W G t carry sums').2 t := by
  unfold tile_out
  congr 1
  apply List.map_congr_left
  intro tid htid
  rw [List.mem_range] at htid
  cases hslice : (t.drop (G * tid)).take G with
  | nil => simp [slice_scan]
  | cons a s =>
      have hlen : 0 < ((t.drop (G * tid)).take G).length := by
        rw [hslice]; simp
      rw [List.length_take, List.length_drop] at hlen
      have hG : 0 < G := by omega
      have hlive : G * tid < t.length := by omega
      rw [tile_step_snd_congr W G hG t carry sums sums' tid htid ?_]
      intro j hj
      have hmul : G * j ≤ G * tid := Nat.mul_le_mul_left G (le_of_lt hj)
      omega

lemma scan_loop_congr (inc : Bool) (W G : ℕ) :
    ∀ (fuel : ℕ) (input : List α) (carry : α) (sums sums' : ℕ → α),
      scan_loop op inc W G fuel input carry sums =
        scan_loop op inc W G fuel input carry sums' := by
  intro fuel
  induction fuel with
  | zero => intro input carry sums sums'; rfl
  | succ fuel ih =>
      intro input carry sums sums'
      cases input with
      | nil => rfl
      | cons h rest =>
          simp only [scan_loop]
          by_cases hWG : W * G = 0
          · rw [if_pos hWG, if_pos hWG]
          · rw [if_neg hWG, if_neg hWG]
            have hW : 0 < W := by
              rcases Nat.eq_zero_or_pos W with h0 | h1
              · exact absurd (by rw [h0]; ring) hWG
              · exact h1
            have hG : 0 < G := by
              rcases Nat.eq_zero_or_pos G with h0 | h1
              · exact absurd (by rw [h0]; ring) hWG
              · exact h1
            rw [tile_out_congr inc W G _ carry sums sums']
            congr 1
            by_cases hle : (h :: rest).length ≤ W * G
            · rw [List.drop_eq_nil_of_le hle, scan_loop_nil, scan_loop_nil]
            · push_neg at hle
              have htlen : ((h :: rest).take (W * G)).length = W * G := by
                rw [List.length_take]; omega
              rw [tile_step_fst_congr W G hW hG _ htlen carry sums sums']
              exact ih _ _ _ _

lemma slice_scan_eq_spec (hassoc : ∀ a b c, op (op a b) c = op a (op b c))
    (inc : Bool) (init : α) (l : List α) :
    slice_scan op inc init l = spec_scan op inc init l := by
  apply List.ext_getElem
  · rw [slice_scan_length]
    simp [spec_scan]
  · intro i h1 h2
    have hlen : i < l.length := by rw [slice_scan_length] at h1; exact h1
    have hspec : (spec_scan op inc init l)[i] =
        (if inc then op init (fold1D op init (l.take (i + 1)))
         else if i = 0 then init else op init (fold1D op init (l.take i))) := by
      simp only [spec_scan, List.getElem_map, List.getElem_range]
    rw [hspec]
    have hd : (slice_scan op inc init l)[i] =
        (slice_scan op inc init l).getD i (l.get ⟨i, hlen⟩) :=
      (List.getD_eq_getElem _ _ h1).symm
    rw [hd]
    cases inc with
    | true =>
        rw [slice_scan_true_getD l i init _ hlen]
        simp only [if_pos]
        rw [op_fold1D hassoc init init _ (take_ne_nil_of_pos (by omega) (by omega))]
    | false =>
        rw [slice_scan_false_getD l i init _ hlen]
        simp only [Bool.false_eq_true, if_false]
        by_cases h0 : i = 0
        · subst h0
          simp
        · rw [if_neg h0]
          rw [op_fold1D hassoc init init _ (take_ne_nil_of_pos (by omega) (by omega))]

end BulkScan


namespace BulkScan

variable {α : Type}

lemma inclusive_scan_eq_swb (op : α → α → α) (W G : ℕ) (input : List α)
    (init : α) (sh : Bool) (sums : ℕ → α) :
    inclusive_scan op W G input init sh sums =
      scan_with_buffer op true W G input init sums := by
  cases sh <;> rfl

lemma exclusive_scan_eq_swb (op : α → α → α) (W G : ℕ) (input : List α)
    (init : α) (sh : Bool) (sums : ℕ → α) :
    exclusive_scan op W G input init sh sums =
      scan_with_buffer op false W G input init sums := by
  cases sh <;> rfl

/-- C1: for every associative binary operation, every non-empty input sequence
and every initial value, the output of `inclusive_scan` at each position `i`
equals `binary_op(init, fold(binary_op, elements[0..=i]))`, the left-to-right
fold of the initial value with the first `i+1` input elements (for any worker
count and grain above zero, any placement tag and any scratch contents). -/
theorem inclusive_scan_pointwise (op : α → α → α)
    (hassoc : ∀ a b c : α, op (op a b) c = op a (op b c))
    (W G : ℕ) (hW : 0 < W) (hG : 0 < G) (input : List α) (_hne : input ≠ [])
    (init : α) (sh : Bool) (sums : ℕ → α) :
    (inclusive_scan op W G input init sh sums).length = input.length ∧
    ∀ i, i < input.length → ∀ d d' : α,
      (inclusive_scan op W G input init sh sums).getD i d =
        op init (fold1D op d' (input.take (i + 1))) := by
  rw [inclusive_scan_eq_swb, scan_with_buffer_eq hassoc true W G hW hG input init sums]
  refine ⟨slice_scan_length true input init, ?_⟩
  intro i hi d d'
  rw [slice_scan_true_getD input i init d hi]
  exact (op_fold1D hassoc init d' _
    (take_ne_nil_of_pos (by omega) (by omega))).symm

theorem inclusive_scan_pointwise_inst :
    ([1, 2, 3, 4, 5] : List ℕ) ≠ [] ∧
    ((inclusive_scan (· + ·) 2 2 [1, 2, 3, 4, 5] 0 true fun _ => 37).length =
      ([1, 2, 3, 4, 5] : List ℕ).length ∧
    ∀ i, i < ([1, 2, 3, 4, 5] : List ℕ).length → ∀ d d' : ℕ,
      (inclusive_scan (· + ·) 2 2 [1, 2, 3, 4, 5] 0 true fun _ => 37).getD i d =
        0 + fold1D (· + ·) d' ([1, 2, 3, 4, 5].take (i + 1))) :=
  ⟨by decide,
    inclusive_scan_pointwise (· + ·) (fun a b c => Nat.add_assoc a b c) 2 2
      (by decide) (by decide) [1, 2, 3, 4, 5] (by decide) 0 true fun _ => 37⟩

/-- C2: for every associative binary operation, every non-empty input sequence
and every initial value, the output of `exclusive_scan` at position `i` equals
`binary_op(init, fold(binary_op, elements[0..i]))`, the fold of the initial
value with the elements strictly before position `i`; at position 0 it is the
initial value itself. -/
theorem exclusive_scan_pointwise (op : α → α → α)
    (hassoc : ∀ a b c : α, op (op a b) c = op a (op b c))
    (W G : ℕ) (hW : 0 < W) (hG : 0 < G) (input : List α) (_hne : input ≠ [])
    (init : α) (sh : Bool) (sums : ℕ → α) :
    (exclusive_scan op W G input init sh sums).length = input.length ∧
    ∀ i, i < input.length → ∀ d d' : α,
      (exclusive_scan op W G input init sh sums).getD i d =
        if i = 0 then init else op init (fold1D op d' (input.take i)) := by
  rw [exclusive_scan_eq_swb, scan_with_buffer_eq hassoc false W G hW hG input init sums]
  refine ⟨slice_scan_length false input init, ?_⟩
  intro i hi d d'
  rw [slice_scan_false_getD input i init d hi]
  by_cases h0 : i = 0
  · subst h0
    simp
  · rw [if_neg h0]
    exact (op_fold1D hassoc init d' _
      (take_ne_nil_of_pos (by omega) (by omega))).symm

theorem exclusive_scan_pointwise_inst :
    ([1, 2, 3, 4, 5] : List ℕ) ≠ [] ∧
    ((exclusive_scan (· + ·) 2 2 [1, 2, 3, 4, 5] 0 true fun _ => 37).length =
      ([1, 2, 3, 4, 5] : List ℕ).length ∧
    ∀ i, i < ([1, 2, 3, 4, 5] : List ℕ).length → ∀ d d' : ℕ,
      (exclusive_scan (· + ·) 2 2 [1, 2, 3, 4, 5] 0 true fun _ => 37).getD i d =
        if i = 0 then 0 else 0 + fold1D (· + ·) d' ([1, 2, 3, 4, 5].take i)) :=
  ⟨by decide,
    exclusive_scan_pointwise (· + ·) (fun a b c => Nat.add_assoc a b c) 2 2
      (by decide) (by decide) [1, 2, 3, 4, 5] (by decide) 0 true fun _ => 37⟩

/-- C3: for every power-of-two worker count `W`, every array of `W` values,
every carry-in and every associative operation,
`small_inplace_exclusive_scan_with_buffer` returns `binary_op(carry, fold of
all W values)` and leaves the sums array holding `carry` at index 0 and
`binary_op(carry, fold(values[0..i]))` at every index `0 < i < W`. -/
theorem small_scan_exclusive_correct (op : α → α → α)
    (hassoc : ∀ a b c : α, op (op a b) c = op a (op b c))
    (W : ℕ) (hpow : ∃ k, W = 2 ^ k) (v : ℕ → α) (carry : α) :
    (small_scan op W v carry).2 = op carry (seg_fold op v 0 (W - 1)) ∧
    (small_scan op W v carry).1 0 = carry ∧
    ∀ i, 0 < i → i < W →
      (small_scan op W v carry).1 i = op carry (seg_fold op v 0 (i - 1)) := by
  have hW : 0 < W := by
    obtain ⟨k, rfl⟩ := hpow
    exact pow_pos (by omega) k
  refine ⟨small_scan_snd hassoc W hW v carry, rfl, ?_⟩
  intro i h0 hiW
  rw [small_scan_fst hassoc W v carry i hiW, if_neg (by omega)]

theorem small_scan_exclusive_correct_inst :
    (∃ k, 4 = 2 ^ k) ∧
    ((small_scan (· + ·) 4 (fun i => i + 1) 10).2 =
      10 + seg_fold (· + ·) (fun i => i + 1) 0 (4 - 1) ∧
    (small_scan (· + ·) 4 (fun i => i + 1) 10).1 0 = 10 ∧
    ∀ i, 0 < i → i < 4 →
      (small_scan (· + ·) 4 (fun i => i + 1) 10).1 i =
        10 + seg_fold (· + ·) (fun i => i + 1) 0 (i - 1)) :=
  ⟨⟨2, by decide⟩,
    small_scan_exclusive_correct (· + ·) (fun a b c => Nat.add_assoc a b c) 4
      ⟨2, by decide⟩ (fun i => i + 1) 10⟩

/-- C4: tiling transparency: for every associative operation, initial carry and
input of any length (below, equal to or any multiple of the tile capacity
`W*G`), the tiled `scan_with_buffer` equals the untiled reference sequential
prefix scan `spec_scan` of the same elements, in both modes, so the tile
decomposition and the carry threading are observationally invisible. -/
theorem scan_tiling_transparent (inclusive : Bool) (op : α → α → α)
    (hassoc : ∀ a b c : α, op (op a b) c = op a (op b c))
    (W G : ℕ) (hW : 0 < W) (hG : 0 < G) (input : List α) (carry : α)
    (sums : ℕ → α) :
    scan_with_buffer op inclusive W G input carry sums =
      spec_scan op inclusive carry input := by
  rw [scan_with_buffer_eq hassoc inclusive W G hW hG input carry sums]
  exact slice_scan_eq_spec hassoc inclusive carry input

theorem scan_tiling_transparent_inst :
    scan_with_buffer (· + ·) true 2 2 [1, 2, 3, 4, 5] 0 (fun _ => 37) =
      spec_scan (· + ·) true 0 [1, 2, 3, 4, 5] :=
  scan_tiling_transparent true (· + ·) (fun a b c => Nat.add_assoc a b c) 2 2
    (by decide) (by decide) [1, 2, 3, 4, 5] 0 fun _ => 37

/-- C5: the convenience overload of `inclusive_scan` without an initial value,
applied to a non-empty range, writes the first source element verbatim to the
first destination slot (it never passes through `binary_op`), and every later
position `i ≥ 1` equals `fold(binary_op, elements[0..=i])`, the inclusive scan
of the tail seeded with the first element. -/
theorem inclusive_scan_seeded_first (op : α → α → α)
    (hassoc : ∀ a b c : α, op (op a b) c = op a (op b c))
    (W G : ℕ) (hW : 0 < W) (hG : 0 < G) (h : α) (rest : List α) (sh : Bool)
    (sums : ℕ → α) :
    (inclusive_scan_no_init op W G (h :: rest) sh sums).length =
      rest.length + 1 ∧
    (∀ d : α, (inclusive_scan_no_init op W G (h :: rest) sh sums).getD 0 d = h) ∧
    ∀ i, 0 < i → i < rest.length + 1 → ∀ d d' : α,
      (inclusive_scan_no_init op W G (h :: rest) sh sums).getD i d =
        fold1D op d' ((h :: rest).take (i + 1)) := by
  have e : inclusive_scan_no_init op W G (h :: rest) sh sums =
      h :: slice_scan op true h rest := by
    show h :: inclusive_scan op W G rest h sh sums = _
    rw [inclusive_scan_eq_swb, scan_with_buffer_eq hassoc true W G hW hG rest h sums]
  rw [e]
  refine ⟨by simp [slice_scan_length], fun d => rfl, ?_⟩
  intro i h0 hi d d'
  cases i with
  | zero => omega
  | succ j =>
      rw [List.getD_cons_succ, slice_scan_true_getD rest j h d (by omega)]
      simp only [List.take_succ_cons, fold1D]

theorem inclusive_scan_seeded_first_inst :
    (inclusive_scan_no_init (· + ·) 2 2 (1 :: [2, 3, 4, 5]) true
      (fun _ => 37)).length = [2, 3, 4, 5].length + 1 ∧
    (∀ d : ℕ, (inclusive_scan_no_init (· + ·) 2 2 (1 :: [2, 3, 4, 5]) true
      (fun _ => 37)).getD 0 d = 1) ∧
    ∀ i, 0 < i → i < [2, 3, 4, 5].length + 1 → ∀ d d' : ℕ,
      (inclusive_scan_no_init (· + ·) 2 2 (1 :: [2, 3, 4, 5]) true
        (fun _ => 37)).getD i d =
        fold1D (· + ·) d' ((1 :: [2, 3, 4, 5]).take (i + 1)) :=
  inclusive_scan_seeded_first (· + ·) (fun a b c => Nat.add_assoc a b c) 2 2
    (by decide) (by decide) 1 [2, 3, 4, 5] true fun _ => 37

/-- C6: mode relation: for every associative operation, input and initial
value, combining the `exclusive_scan` output at each position with the input
element at the same position via `binary_op` yields exactly the
`inclusive_scan` output at that position. -/
theorem scan_mode_relation (op : α → α → α)
    (hassoc : ∀ a b c : α, op (op a b) c = op a (op b c))
    (W G : ℕ) (hW : 0 < W) (hG : 0 < G) (input : List α) (init : α)
    (sh : Bool) (sums : ℕ → α) :
    ∀ i, i < input.length → ∀ d1 d2 d3 : α,
      op ((exclusive_scan op W G input init sh sums).getD i d1)
          (input.getD i d2) =
        (inclusive_scan op W G input init sh sums).getD i d3 := by
  intro i hi d1 d2 d3
  rw [exclusive_scan_eq_swb, inclusive_scan_eq_swb,
    scan_with_buffer_eq hassoc false W G hW hG input init sums,
    scan_with_buffer_eq hassoc true W G hW hG input init sums,
    slice_scan_false_getD input i init d1 hi,
    slice_scan_true_getD input i init d3 hi]
  exact (foldl_take_succ input i init d2 hi).symm

theorem scan_mode_relation_inst :
    (4 < ([1, 2, 3, 4, 5] : List ℕ).length) ∧
    (exclusive_scan (· + ·) 2 2 [1, 2, 3, 4, 5] 0 true fun _ => 37).getD 4 7 +
        [1, 2, 3, 4, 5].getD 4 7 =
      (inclusive_scan (· + ·) 2 2 [1, 2, 3, 4, 5] 0 true fun _ => 37).getD 4 7 :=
  ⟨by decide,
    scan_mode_relation (· + ·) (fun a b c => Nat.add_assoc a b c) 2 2
      (by decide) (by decide) [1, 2, 3, 4, 5] 0 true (fun _ => 37) 4
      (by decide) 7 7 7⟩

/-- C7: carry invariant of the tile loop: at the start of iteration `k` of the
tile loop of `scan_with_buffer` (while a `k`-th tile exists) the carry equals
the fold of the caller's initial value with all elements strictly before the
current tile (for `k = 0` the initial value itself), the invariant being
re-established at every tile boundary by the total returned from the small
scan. -/
theorem tile_loop_carry_invariant (op : α → α → α)
    (hassoc : ∀ a b c : α, op (op a b) c = op a (op b c))
    (W G : ℕ) (hW : 0 < W) (hG : 0 < G) (input : List α) (init : α)
    (sums0 : ℕ → α) (k : ℕ) (hk : k * (W * G) < input.length) :
    (carry_state op W G input init sums0 k).1 =
      (input.take (k * (W * G))).foldl op init := by
  induction k with
  | zero => simp [carry_state]
  | succ k ih =>
      have hk' : k * (W * G) < input.length := by
        have hmono : k * (W * G) ≤ (k + 1) * (W * G) :=
          Nat.mul_le_mul_right _ (by omega)
        omega
      have hrem : (k + 1) * (W * G) = k * (W * G) + W * G := by ring
      have htlen : ((input.drop (k * (W * G))).take (W * G)).length = W * G := by
        rw [List.length_take, List.length_drop]
        omega
      simp only [carry_state]
      rw [tile_step_total hassoc W G hW hG _ htlen _ _, ih hk',
        ← List.foldl_append, ← List.take_add, ← hrem]

theorem tile_loop_carry_invariant_inst :
    (1 * (2 * 1) < ([1, 2, 3, 4, 5] : List ℕ).length) ∧
    (carry_state (· + ·) 2 1 [1, 2, 3, 4, 5] 0 (fun _ => 9) 1).1 =
      ([1, 2, 3, 4, 5].take (1 * (2 * 1))).foldl (· + ·) 0 :=
  ⟨by decide,
    tile_loop_carry_invariant (· + ·) (fun a b c => Nat.add_assoc a b c) 2 1
      (by decide) (by decide) [1, 2, 3, 4, 5] 0 (fun _ => 9) 1 (by decide)⟩

/-- C8: for an empty input range, `inclusive_scan`, `exclusive_scan` and the
no-initial-value overload write nothing to the destination (the result list is
empty) and return normally. -/
theorem scan_empty_range (op : α → α → α) (W G : ℕ) (init : α) (sh : Bool)
    (sums : ℕ → α) :
    inclusive_scan op W G [] init sh sums = [] ∧
    exclusive_scan op W G [] init sh sums = [] ∧
    inclusive_scan_no_init op W G ([] : List α) sh sums = [] := by
  refine ⟨?_, ?_, rfl⟩ <;> cases sh <;> rfl

/-- C9: placement invariance: the results of `inclusive_scan` and
`exclusive_scan` are identical whether the scratch buffer carries the fast
on-chip tag or the fallback tag; both branches of the placement dispatch run
the same `scan_with_buffer` algorithm on the same data. -/
theorem scan_placement_invariant (op : α → α → α) (W G : ℕ) (input : List α)
    (init : α) (sums : ℕ → α) :
    inclusive_scan op W G input init true sums =
      inclusive_scan op W G input init false sums ∧
    exclusive_scan op W G input init true sums =
      exclusive_scan op W G input init false sums :=
  ⟨rfl, rfl⟩

/-- C10: stale-slot noninterference: a worker whose local slice is empty on a
partial final tile never writes its `sums` slot before the small scan, so the
slot holds garbage; for any two initial contents of the scratch `sums` array
the destination output of `scan_with_buffer` is identical (the garbage can
reach only the tile total after the final tile, which is never used). -/
theorem scan_stale_sums_noninterference (inclusive : Bool) (op : α → α → α)
    (W G : ℕ) (input : List α) (carry : α) (sums sums' : ℕ → α) :
    scan_with_buffer op inclusive W G input carry sums =
      scan_with_buffer op inclusive W G input carry sums' :=
  scan_loop_congr inclusive W G input.length input carry sums sums'

end BulkScan
